import Mathlib

/-!
Verification of the readlinks symlink-resolution library.

The development shallowly embeds the library's core (`src/lib.rs`):
paths are modelled as a flag for absoluteness plus the list of normal
components (the shape produced by Rust's `Path::components()` after its
normalisation), the filesystem is an oracle mapping each path to a node,
to absence, or to a non-NotFound I/O failure, and the functions
`readlink`, `find_symlink`, `SymlinkPath.resolve`, the
`ReadlinksIterator::next` state machine and `expand_path` are translated
line by line.  A `none`/`panicked` result marks the places where the
Rust code would panic (the `unwrap` in `resolve`).
-/

namespace Readlinks

/-- One component of a path, after the normalisation Rust's
`Path::components()` performs: either the root directory or a normal
named component. -/
inductive Component where
  | rootDir
  | normal (s : String)
deriving DecidableEq, Repr

/-- A filesystem path: whether it is absolute, and its ordered list of
normal components.  This is the normal form that `PathBuf` values built
from components take. -/
structure FsPath where
  absolute : Bool
  comps : List String
deriving DecidableEq, Repr

/-- The empty (relative) path, `PathBuf::new()`. -/
def emptyPath : FsPath := ⟨false, []⟩

/-- The root path `/`. -/
def rootPath : FsPath := ⟨true, []⟩

/-- The component sequence of a path, as yielded by `components()`:
a leading `RootDir` when absolute, then the normal components. -/
def FsPath.componentsList (p : FsPath) : List Component :=
  (if p.absolute then [Component.rootDir] else []) ++ p.comps.map Component.normal

/-- `PathBuf::push` of a single component: pushing `RootDir` pushes the
absolute path `/`, which replaces the accumulator entirely; pushing a
normal component appends it. -/
def pushComponent (p : FsPath) : Component → FsPath
  | Component.rootDir => rootPath
  | Component.normal s => ⟨p.absolute, p.comps ++ [s]⟩

/-- `PathBuf::push` / `Path::join`: joining an absolute path replaces
the accumulator entirely, joining a relative path appends its
components. -/
def FsPath.push (p q : FsPath) : FsPath :=
  if q.absolute then q else ⟨p.absolute, p.comps ++ q.comps⟩

/-- `Path::parent()`: strips the last component; `None` for the root
path and for the empty path. -/
def FsPath.parent (p : FsPath) : Option FsPath :=
  match p.comps with
  | [] => none
  | _ :: _ => some ⟨p.absolute, p.comps.dropLast⟩

/-- `Components::as_path()`: the path formed by the remaining components
(the components are pushed onto an empty buffer in order). -/
def ofComponents (l : List Component) : FsPath :=
  l.foldl pushComponent emptyPath

/-- A filesystem node, as seen by `symlink_metadata` (which does not
follow a trailing link): either a symlink with its literal stored
target, or any other kind of node (regular file, directory, ...). -/
inductive Node where
  | file
  | link (target : FsPath)
deriving DecidableEq, Repr

/-- What the operating system answers when asked about a path: an
existing node, absence (`ErrorKind::NotFound`), or some other I/O
failure (permission denied, ...) carrying its message. -/
inductive FsAnswer where
  | node (n : Node)
  | absent
  | denied (msg : String)
deriving DecidableEq, Repr

/-- The filesystem oracle: every metadata query about a path gets the
same answer within one resolution. -/
def Fs := FsPath → FsAnswer

/-- The error type of the fallible operations, keeping exactly the
distinction the code inspects: `ErrorKind::NotFound` versus any other
I/O error. -/
inductive Errno where
  | notFound
  | other (msg : String)
deriving DecidableEq, Repr

instance {ε α : Type} [DecidableEq ε] [DecidableEq α] : DecidableEq (Except ε α) :=
  fun x y =>
  match x, y with
  | Except.ok a, Except.ok b =>
    if h : a = b then Decidable.isTrue (h ▸ rfl)
    else Decidable.isFalse fun hh => h (Except.ok.inj hh)
  | Except.ok _, Except.error _ => Decidable.isFalse fun hh => Except.noConfusion hh
  | Except.error _, Except.ok _ => Decidable.isFalse fun hh => Except.noConfusion hh
  | Except.error e, Except.error f =>
    if h : e = f then Decidable.isTrue (h ▸ rfl)
    else Decidable.isFalse fun hh => h (Except.error.inj hh)

/-- `fs::symlink_metadata`: queries the node at `p` without following a
trailing link; fails with `notFound` when the path does not exist and
with `other` on any other I/O failure. -/
def symlink_metadata (fs : Fs) (p : FsPath) : Except Errno Node :=
  match fs p with
  | FsAnswer.node n => Except.ok n
  | FsAnswer.absent => Except.error Errno.notFound
  | FsAnswer.denied m => Except.error (Errno.other m)

/-- `fs::read_link`: returns the literal target stored in the symlink at
`p`; an error on a non-link, a missing path, or another I/O failure. -/
def read_link (fs : Fs) (p : FsPath) : Except Errno FsPath :=
  match fs p with
  | FsAnswer.node (Node.link t) => Except.ok t
  | FsAnswer.node Node.file => Except.error (Errno.other "invalid input")
  | FsAnswer.absent => Except.error Errno.notFound
  | FsAnswer.denied m => Except.error (Errno.other m)

/-- The library's `readlink` helper: query the metadata of `path`
without following a trailing link; `none` when the node is not a
symlink, otherwise the literal target read by `read_link`; both
filesystem errors propagate. -/
def readlink (fs : Fs) (p : FsPath) : Except Errno (Option FsPath) :=
  match symlink_metadata fs p with
  | Except.error e => Except.error e
  | Except.ok md =>
    match md with
    | Node.file => Except.ok none
    | Node.link _ =>
      match read_link fs p with
      | Except.error e => Except.error e
      | Except.ok t => Except.ok (some t)

/-- The `SymlinkPath` sum type: a discovered link hop (`Symlink` with
`source`, literal `target` and untouched `suffix`) or a terminal
non-link path (`NotLink`). -/
inductive SymlinkPath where
  | Symlink (source target suffix : FsPath)
  | NotLink (p : FsPath)
deriving DecidableEq, Repr

/-- `SymlinkPath::resolve`: the next path to probe.  For a link hop,
the parent of `source` (whose `unwrap` is modelled by `Option.map`:
a `none` result is the panic) joined with `target`, then with `suffix`
when `suffix` has at least one component. -/
def SymlinkPath.resolve : SymlinkPath → Option FsPath
  | SymlinkPath.NotLink p => some p
  | SymlinkPath.Symlink source target suffix =>
    (source.parent).map fun d =>
      let r := d.push target
      if suffix.componentsList.isEmpty then r else r.push suffix

/-- The loop body of `find_symlink`: walk the remaining components,
pushing each onto the accumulated path and probing it with `readlink`;
the first probe reporting a link short-circuits with a `Symlink` hop
whose suffix is the remaining components re-joined; errors propagate;
when the components run out, the accumulated full path is a `NotLink`
hop. -/
def find_symlink_aux (fs : Fs) (pre : FsPath) : List Component → Except Errno SymlinkPath
  | [] => Except.ok (SymlinkPath.NotLink pre)
  | c :: rest =>
    let pre' := pushComponent pre c
    match readlink fs pre' with
    | Except.error e => Except.error e
    | Except.ok (some target) =>
      Except.ok (SymlinkPath.Symlink pre' target (ofComponents rest))
    | Except.ok none => find_symlink_aux fs pre' rest

/-- `find_symlink`: find the first symlink among the prefixes of `p`,
built one component at a time from an empty buffer. -/
def find_symlink (fs : Fs) (p : FsPath) : Except Errno SymlinkPath :=
  find_symlink_aux fs emptyPath p.componentsList

/-- The iterator state: the path to probe on the next step, and the
`done` flag. -/
structure ReadlinksIterator where
  path : FsPath
  done : Bool
deriving DecidableEq, Repr

/-- What one call to `ReadlinksIterator::next` does: yield a hop with
the successor state, return `None` with the state unchanged (the
exhausted case), print an error to stderr and return `None`
(`errorStop`), or panic (the `unwrap` inside `resolve`). -/
inductive NextOutcome where
  | yield (hop : SymlinkPath) (st : ReadlinksIterator)
  | exhausted (st : ReadlinksIterator)
  | errorStop (msg : String) (st : ReadlinksIterator)
  | panicked
deriving DecidableEq, Repr

/-- `ReadlinksIterator::next`: when `done`, nothing further; otherwise
run `find_symlink` on the current path.  A `NotLink` result sets `done`;
the hop's `resolve` becomes the new path and the hop is yielded.  A
`NotFound` error yields a terminal `NotLink` hop for the current path
and sets `done`.  Any other error is printed and `None` is returned,
with the state left unchanged. -/
def ReadlinksIterator.next (fs : Fs) (it : ReadlinksIterator) : NextOutcome :=
  if it.done then NextOutcome.exhausted it
  else
    match find_symlink fs it.path with
    | Except.ok sp =>
      let d := match sp with
        | SymlinkPath.NotLink _ => true
        | _ => it.done
      match sp.resolve with
      | none => NextOutcome.panicked
      | some p => NextOutcome.yield sp ⟨p, d⟩
    | Except.error Errno.notFound =>
      NextOutcome.yield (SymlinkPath.NotLink it.path) ⟨it.path, true⟩
    | Except.error (Errno.other m) => NextOutcome.errorStop m it

/-- `resolve` (the public constructor): a fresh iterator for `path`. -/
def resolveIter (p : FsPath) : ReadlinksIterator := ⟨p, false⟩

/-- Repeatedly call `next`, collecting the outcome of each call; a
panic ends the run. -/
def runSteps (fs : Fs) : Nat → ReadlinksIterator → List NextOutcome
  | 0, _ => []
  | n + 1, it =>
    match ReadlinksIterator.next fs it with
    | NextOutcome.yield hop st => NextOutcome.yield hop st :: runSteps fs n st
    | NextOutcome.exhausted st => NextOutcome.exhausted st :: runSteps fs n st
    | NextOutcome.errorStop m st => NextOutcome.errorStop m st :: runSteps fs n st
    | NextOutcome.panicked => [NextOutcome.panicked]

/-- `expand_path`: when the candidate has exactly one component, search
the directories of the `PATH` variable (when set) in order and return
the first directory-joined candidate that is a regular file; otherwise,
and when nothing matches, return the candidate unchanged. -/
def expand_path (envPATH : Option (List FsPath)) (isFile : FsPath → Bool)
    (p : FsPath) : FsPath :=
  let found : Option FsPath :=
    if p.componentsList.length == 1 then
      envPATH.bind fun dirs => (dirs.map fun d => d.push p).find? isFile
    else none
  found.getD p

/-- The prefix of `p` made of its first `k` components, as the probe
builds it. -/
def probedPre (p : FsPath) (k : Nat) : FsPath :=
  ofComponents (p.componentsList.take k)

/-- Concrete filesystem: `/L` is a link to `/D`, `/D` a regular node. -/
def fsLD : Fs := fun p =>
  if p = rootPath then FsAnswer.node Node.file
  else if p = ⟨true, ["L"]⟩ then FsAnswer.node (Node.link ⟨true, ["D"]⟩)
  else if p = ⟨true, ["D"]⟩ then FsAnswer.node Node.file
  else FsAnswer.absent

/-- Concrete filesystem: `/a` links to `/b`, `/b` links to the relative
target `relative_c`. -/
def fsABC : Fs := fun p =>
  if p = rootPath then FsAnswer.node Node.file
  else if p = ⟨true, ["a"]⟩ then FsAnswer.node (Node.link ⟨true, ["b"]⟩)
  else if p = ⟨true, ["b"]⟩ then FsAnswer.node (Node.link ⟨false, ["relative_c"]⟩)
  else FsAnswer.absent

/-- Concrete filesystem: only the root exists; `/x` is absent. -/
def fsMissing : Fs := fun p =>
  if p = rootPath then FsAnswer.node Node.file else FsAnswer.absent

/-- Concrete filesystem: probing `/p` fails with a non-NotFound error. -/
def fsDenied : Fs := fun p =>
  if p = rootPath then FsAnswer.node Node.file
  else if p = ⟨true, ["p"]⟩ then FsAnswer.denied "permission denied"
  else FsAnswer.absent

/-- Concrete filesystem with a link cycle: `/a` links to `/b` and `/b`
links back to `/a`. -/
def fsCycle : Fs := fun p =>
  if p = rootPath then FsAnswer.node Node.file
  else if p = ⟨true, ["a"]⟩ then FsAnswer.node (Node.link ⟨true, ["b"]⟩)
  else if p = ⟨true, ["b"]⟩ then FsAnswer.node (Node.link ⟨true, ["a"]⟩)
  else FsAnswer.absent

/-- The search-path directories `/bin` and `/usr/bin`. -/
def searchDirs : List FsPath := [⟨true, ["bin"]⟩, ⟨true, ["usr", "bin"]⟩]

/-- File-existence oracle for the expander scenario: only `/bin/ls`
exists as a regular file. -/
def isFileBinLs : FsPath → Bool := fun q => decide (q = ⟨true, ["bin", "ls"]⟩)

end Readlinks

namespace Readlinks

theorem next_of_done (fs : Fs) (it : ReadlinksIterator) (h : it.done = true) :
    ReadlinksIterator.next fs it = NextOutcome.exhausted it := by
  simp [ReadlinksIterator.next, h]

theorem runSteps_done (fs : Fs) :
    ∀ (n : Nat) (st : ReadlinksIterator), st.done = true →
      runSteps fs n st = List.replicate n (NextOutcome.exhausted st) := by
  intro n
  induction n with
  | zero => intro st _; rfl
  | succ n ih =>
    intro st h
    rw [runSteps, next_of_done fs st h]
    show NextOutcome.exhausted st :: runSteps fs n st = _
    rw [List.replicate_succ, ih st h]

theorem foldl_pushComponent_normals :
    ∀ (l : List String) (b : Bool) (cs : List String),
      List.foldl pushComponent ⟨b, cs⟩ (l.map Component.normal) = ⟨b, cs ++ l⟩ := by
  intro l
  induction l with
  | nil => intro b cs; simp
  | cons x xs ih =>
    intro b cs
    simp only [List.map_cons, List.foldl_cons, pushComponent, ih]
    simp

theorem ofComponents_componentsList (p : FsPath) :
    ofComponents p.componentsList = p := by
  obtain ⟨b, cs⟩ := p
  cases b with
  | false =>
    simpa [ofComponents, FsPath.componentsList, emptyPath] using
      foldl_pushComponent_normals cs false []
  | true =>
    simpa [ofComponents, FsPath.componentsList, emptyPath, pushComponent, rootPath] using
      foldl_pushComponent_normals cs true []

theorem find_symlink_aux_notlink :
    ∀ (l : List Component) (fs : Fs) (pre : FsPath),
      (∀ k, k < l.length →
        readlink fs (List.foldl pushComponent pre (l.take (k + 1))) = Except.ok none) →
      find_symlink_aux fs pre l =
        Except.ok (SymlinkPath.NotLink (List.foldl pushComponent pre l)) := by
  intro l
  induction l with
  | nil => intro fs pre _; rfl
  | cons c rest ih =>
    intro fs pre h
    have h0 : readlink fs (pushComponent pre c) = Except.ok none := by
      simpa using h 0 (by simp)
    rw [find_symlink_aux, h0, List.foldl_cons]
    exact ih fs (pushComponent pre c) fun k hk => by
      simpa using h (k + 1) (by simpa using hk)

theorem find_symlink_no_links (fs : Fs) (p : FsPath)
    (h : ∀ k, k < p.componentsList.length →
      readlink fs (probedPre p (k + 1)) = Except.ok none) :
    find_symlink fs p = Except.ok (SymlinkPath.NotLink p) := by
  unfold find_symlink
  rw [find_symlink_aux_notlink p.componentsList fs emptyPath
    (fun k hk => by simpa [probedPre, ofComponents] using h k hk)]
  rw [show List.foldl pushComponent emptyPath p.componentsList = p from
    ofComponents_componentsList p]

/-- C3: when probing a prefix fails because that prefix does not exist,
the resolution step yields a Terminal (`NotLink`) hop for the original
starting path handed to the step — not an error — and marks the
iterator done. -/
theorem claim_C3_missing_segment_is_terminal (fs : Fs) (it : ReadlinksIterator)
    (h1 : it.done = false)
    (h2 : find_symlink fs it.path = Except.error Errno.notFound) :
    ReadlinksIterator.next fs it =
      NextOutcome.yield (SymlinkPath.NotLink it.path) ⟨it.path, true⟩ := by
  simp [ReadlinksIterator.next, h1, h2]

/-- Instance of C3 on the concrete scenario `/x/y` with `/x` absent:
the single step yields a Terminal hop for `/x/y`. -/
theorem claim_C3_witness :
    ReadlinksIterator.next fsMissing (resolveIter ⟨true, ["x", "y"]⟩) =
      NextOutcome.yield (SymlinkPath.NotLink ⟨true, ["x", "y"]⟩)
        ⟨⟨true, ["x", "y"]⟩, true⟩ :=
  claim_C3_missing_segment_is_terminal fsMissing (resolveIter ⟨true, ["x", "y"]⟩)
    rfl (by decide)

/-- C4 counterexample: on a permission-denied probe the iterator does
NOT transition to Done — its state is returned unchanged with
`done = false`, and a second call to `next` runs the resolution again,
producing a second error outcome instead of an exhausted one. -/
theorem claim_C4_counterexample :
    runSteps fsDenied 2 ⟨⟨true, ["p"]⟩, false⟩ =
      [NextOutcome.errorStop "permission denied" ⟨⟨true, ["p"]⟩, false⟩,
       NextOutcome.errorStop "permission denied" ⟨⟨true, ["p"]⟩, false⟩] ∧
    (⟨⟨true, ["p"]⟩, false⟩ : ReadlinksIterator).done = false :=
  ⟨by decide, rfl⟩

/-- C4 (amended): on a propagated I/O error that is not NotFound, the
step prints the error and yields no hop, but leaves the iterator state
completely unchanged — `done` stays false and the path stays put — so a
subsequent call attempts the same resolution again. -/
theorem claim_C4_error_leaves_state (fs : Fs) (it : ReadlinksIterator) (m : String)
    (h1 : it.done = false)
    (h2 : find_symlink fs it.path = Except.error (Errno.other m)) :
    ReadlinksIterator.next fs it = NextOutcome.errorStop m it := by
  simp [ReadlinksIterator.next, h1, h2]

/-- Instance of the amended C4 on the permission-denied filesystem. -/
theorem claim_C4_witness :
    ReadlinksIterator.next fsDenied ⟨⟨true, ["p"]⟩, false⟩ =
      NextOutcome.errorStop "permission denied" ⟨⟨true, ["p"]⟩, false⟩ :=
  claim_C4_error_leaves_state fsDenied ⟨⟨true, ["p"]⟩, false⟩ "permission denied"
    rfl (by decide)

/-- C5: whenever a step yields a Terminal (`NotLink`) hop, the successor
state is Done, and from a Done state every later call (over any
filesystem) is exhausted: no further hop is ever yielded. -/
theorem claim_C5_terminal_exhausts (fs : Fs) (it : ReadlinksIterator)
    (hop : SymlinkPath) (st : ReadlinksIterator)
    (hy : ReadlinksIterator.next fs it = NextOutcome.yield hop st)
    (hterm : ∃ q, hop = SymlinkPath.NotLink q) :
    st.done = true ∧
      ∀ (fs2 : Fs) (n : Nat),
        runSteps fs2 n st = List.replicate n (NextOutcome.exhausted st) := by
  obtain ⟨q, rfl⟩ := hterm
  have hdone : st.done = true := by
    unfold ReadlinksIterator.next at hy
    by_cases hd : it.done = true
    · simp [hd] at hy
    · simp only [Bool.not_eq_true] at hd
      simp only [hd, Bool.false_eq_true, if_false] at hy
      cases hfs : find_symlink fs it.path with
      | error e =>
        rw [hfs] at hy
        cases e with
        | notFound =>
          simp only [NextOutcome.yield.injEq] at hy
          rw [← hy.2]
        | other m => simp at hy
      | ok sp =>
        rw [hfs] at hy
        cases sp with
        | NotLink p =>
          simp only [SymlinkPath.resolve, NextOutcome.yield.injEq] at hy
          rw [← hy.2]
        | Symlink s t suf =>
          rcases hr : SymlinkPath.resolve (SymlinkPath.Symlink s t suf) with _ | r <;>
            simp [hr] at hy
  exact ⟨hdone, fun fs2 n => runSteps_done fs2 n st hdone⟩

/-- Instance of C5: after the Terminal hop for `/x/y`, the state is done
and three further calls all come back exhausted. -/
theorem claim_C5_witness :
    (⟨⟨true, ["x", "y"]⟩, true⟩ : ReadlinksIterator).done = true ∧
      runSteps fsMissing 3 ⟨⟨true, ["x", "y"]⟩, true⟩ =
        List.replicate 3 (NextOutcome.exhausted ⟨⟨true, ["x", "y"]⟩, true⟩) :=
  ⟨(claim_C5_terminal_exhausts fsMissing (resolveIter ⟨true, ["x", "y"]⟩)
      (SymlinkPath.NotLink ⟨true, ["x", "y"]⟩) ⟨⟨true, ["x", "y"]⟩, true⟩
      (by decide) ⟨⟨true, ["x", "y"]⟩, rfl⟩).1,
   (claim_C5_terminal_exhausts fsMissing (resolveIter ⟨true, ["x", "y"]⟩)
      (SymlinkPath.NotLink ⟨true, ["x", "y"]⟩) ⟨⟨true, ["x", "y"]⟩, true⟩
      (by decide) ⟨⟨true, ["x", "y"]⟩, rfl⟩).2 fsMissing 3⟩

/-- C7: when no prefix of the path probes as a link, the sequence yields
exactly one hop — a Terminal hop whose path is the input path — and
every later call is exhausted. -/
theorem claim_C7_no_links_single_terminal (fs : Fs) (p : FsPath)
    (h : ∀ k, k < p.componentsList.length →
      readlink fs (probedPre p (k + 1)) = Except.ok none) :
    ∀ n : Nat, runSteps fs (n + 1) (resolveIter p) =
      NextOutcome.yield (SymlinkPath.NotLink p) ⟨p, true⟩ ::
        List.replicate n (NextOutcome.exhausted ⟨p, true⟩) := by
  intro n
  have hfs := find_symlink_no_links fs p h
  have hnext : ReadlinksIterator.next fs (resolveIter p) =
      NextOutcome.yield (SymlinkPath.NotLink p) ⟨p, true⟩ := by
    simp [ReadlinksIterator.next, resolveIter, hfs, SymlinkPath.resolve]
  rw [runSteps, hnext]
  show _ :: runSteps fs n _ = _
  rw [runSteps_done fs n _ rfl]

/-- Instance of C7 on `/D` (a regular node below the root): one Terminal
hop for `/D`, then exhaustion. -/
theorem claim_C7_witness :
    runSteps fsLD 3 (resolveIter ⟨true, ["D"]⟩) =
      NextOutcome.yield (SymlinkPath.NotLink ⟨true, ["D"]⟩) ⟨⟨true, ["D"]⟩, true⟩ ::
        List.replicate 2 (NextOutcome.exhausted ⟨⟨true, ["D"]⟩, true⟩) :=
  claim_C7_no_links_single_terminal fsLD ⟨true, ["D"]⟩ (by decide) 2

/-- C8: the probe queries metadata without following a trailing link:
a non-link node gives `none`, a link gives its literal stored target
(whatever that target is — relative, absolute, or dangling), absence
propagates as the NotFound error, and any other failure propagates as a
distinguishable non-NotFound error. -/
theorem claim_C8_readlink_spec :
    (∀ (fs : Fs) (p : FsPath), fs p = FsAnswer.node Node.file →
        readlink fs p = Except.ok none) ∧
    (∀ (fs : Fs) (p t : FsPath), fs p = FsAnswer.node (Node.link t) →
        readlink fs p = Except.ok (some t)) ∧
    (∀ (fs : Fs) (p : FsPath), fs p = FsAnswer.absent →
        readlink fs p = Except.error Errno.notFound) ∧
    (∀ (fs : Fs) (p : FsPath) (m : String), fs p = FsAnswer.denied m →
        readlink fs p = Except.error (Errno.other m)) := by
  refine ⟨fun fs p h => ?_, fun fs p t h => ?_, fun fs p h => ?_, fun fs p m h => ?_⟩ <;>
    simp [readlink, symlink_metadata, read_link, h]

/-- Instance of C8: probing the link `/L` returns its literal target
`/D`. -/
theorem claim_C8_witness :
    readlink fsLD ⟨true, ["L"]⟩ = Except.ok (some ⟨true, ["D"]⟩) :=
  claim_C8_readlink_spec.2.1 fsLD ⟨true, ["L"]⟩ ⟨true, ["D"]⟩ (by decide)

theorem find_symlink_aux_symlink :
    ∀ (l : List Component) (fs : Fs) (pre : FsPath) (s t suf : FsPath),
      find_symlink_aux fs pre l = Except.ok (SymlinkPath.Symlink s t suf) →
      ∃ k, k < l.length ∧
        s = List.foldl pushComponent pre (l.take (k + 1)) ∧
        readlink fs s = Except.ok (some t) ∧
        (∀ j, j < k →
          readlink fs (List.foldl pushComponent pre (l.take (j + 1))) = Except.ok none) ∧
        suf = ofComponents (l.drop (k + 1)) := by
  intro l
  induction l with
  | nil =>
    intro fs pre s t suf h
    simp [find_symlink_aux] at h
  | cons c rest ih =>
    intro fs pre s t suf h
    rw [find_symlink_aux] at h
    cases hr : readlink fs (pushComponent pre c) with
    | error e => rw [hr] at h; simp at h
    | ok o =>
      rw [hr] at h
      cases o with
      | some target =>
        simp only [Except.ok.injEq, SymlinkPath.Symlink.injEq] at h
        obtain ⟨hs, ht, hsuf⟩ := h
        refine ⟨0, by simp, ?_, ?_, ?_, ?_⟩
        · rw [← hs]; simp
        · rw [← hs, ← ht]; exact hr
        · intro j hj; exact absurd hj (Nat.not_lt_zero j)
        · rw [← hsuf]; simp
      | none =>
        obtain ⟨k, hk, hs, hprobe, hall, hsuf⟩ := ih fs (pushComponent pre c) s t suf h
        refine ⟨k + 1, by simpa using hk, ?_, hprobe, ?_, ?_⟩
        · rw [hs]; simp [List.take_succ_cons, List.foldl_cons]
        · intro j hj
          cases j with
          | zero => simpa using hr
          | succ j2 =>
            have := hall j2 (Nat.lt_of_succ_lt_succ hj)
            simpa [List.take_succ_cons, List.foldl_cons] using this
        · rw [hsuf]; simp [List.drop_succ_cons]

/-- C1: whenever find_symlink reports a link hop, there is an index k
into the component sequence such that the source is exactly the prefix
of the first k+1 components, every strictly shorter probed prefix was
reported as a non-link, the source probes to the raw target, and the
suffix is exactly the components not yet consumed, in order. -/
theorem claim_C1_first_link (fs : Fs) (p : FsPath) (s t suf : FsPath)
    (h : find_symlink fs p = Except.ok (SymlinkPath.Symlink s t suf)) :
    ∃ k, k < p.componentsList.length ∧
      s = probedPre p (k + 1) ∧
      readlink fs s = Except.ok (some t) ∧
      (∀ j, j < k → readlink fs (probedPre p (j + 1)) = Except.ok none) ∧
      suf = ofComponents (p.componentsList.drop (k + 1)) := by
  have hc := find_symlink_aux_symlink p.componentsList fs emptyPath s t suf h
  simpa [probedPre, ofComponents] using hc

/-- Instance of C1 on `/L/sub/file` with `/L` a link to `/D`: the first
hop has source `/L`, target `/D` and suffix `sub/file`. -/
theorem claim_C1_witness :
    find_symlink fsLD ⟨true, ["L", "sub", "file"]⟩ =
      Except.ok (SymlinkPath.Symlink ⟨true, ["L"]⟩ ⟨true, ["D"]⟩
        ⟨false, ["sub", "file"]⟩) ∧
    ∃ k, k < (⟨true, ["L", "sub", "file"]⟩ : FsPath).componentsList.length ∧
      (⟨true, ["L"]⟩ : FsPath) = probedPre ⟨true, ["L", "sub", "file"]⟩ (k + 1) ∧
      readlink fsLD ⟨true, ["L"]⟩ = Except.ok (some ⟨true, ["D"]⟩) ∧
      (∀ j, j < k →
        readlink fsLD (probedPre ⟨true, ["L", "sub", "file"]⟩ (j + 1)) = Except.ok none) ∧
      (⟨false, ["sub", "file"]⟩ : FsPath) =
        ofComponents ((⟨true, ["L", "sub", "file"]⟩ : FsPath).componentsList.drop (k + 1)) :=
  ⟨by decide, claim_C1_first_link fsLD ⟨true, ["L", "sub", "file"]⟩ ⟨true, ["L"]⟩
    ⟨true, ["D"]⟩ ⟨false, ["sub", "file"]⟩ (by decide)⟩

theorem foldl_pushComponent_last :
    ∀ (l : List Component) (q : FsPath), l ≠ [] →
      ∃ r c, c ∈ l ∧ List.foldl pushComponent q l = pushComponent r c := by
  intro l
  induction l with
  | nil => intro q h; exact absurd rfl h
  | cons c rest ih =>
    intro q _
    cases rest with
    | nil => exact ⟨q, c, by simp, by simp⟩
    | cons c2 r2 =>
      obtain ⟨r, c3, hmem, heq⟩ := ih (pushComponent q c) (by simp)
      exact ⟨r, c3, List.mem_cons_of_mem c hmem, by simpa [List.foldl_cons] using heq⟩

theorem parent_isSome_of_comps_ne_nil (p : FsPath) (h : p.comps ≠ []) :
    ∃ d, p.parent = some d := by
  rcases hc : p.comps with _ | ⟨a, as⟩
  · exact absurd hc h
  · exact ⟨⟨p.absolute, (a :: as).dropLast⟩, by unfold FsPath.parent; rw [hc]⟩

/-- C10: whenever find_symlink reports a link hop and the probe never
reports the root directory itself as a link, the hop's source has a
parent, so the unconditional unwrap inside resolve cannot panic:
resolve returns a value. -/
theorem claim_C10_resolve_total (fs : Fs) (p : FsPath) (s t suf : FsPath)
    (h : find_symlink fs p = Except.ok (SymlinkPath.Symlink s t suf))
    (hroot : ∀ t2, readlink fs rootPath ≠ Except.ok (some t2)) :
    (SymlinkPath.resolve (SymlinkPath.Symlink s t suf)).isSome = true := by
  unfold find_symlink at h
  obtain ⟨k, hk, hs, hprobe, -, -⟩ :=
    find_symlink_aux_symlink p.componentsList fs emptyPath s t suf h
  have hne : p.componentsList.take (k + 1) ≠ [] := by
    have hlen : p.componentsList ≠ [] := by
      intro hnil
      rw [hnil] at hk
      exact absurd hk (by simp)
    simp [List.take_eq_nil_iff, hlen]
  obtain ⟨r, c, _, heq⟩ := foldl_pushComponent_last _ emptyPath hne
  rw [heq] at hs
  cases c with
  | rootDir =>
    have hsr : s = rootPath := by rw [hs]; rfl
    rw [hsr] at hprobe
    exact absurd hprobe (hroot t)
  | normal x =>
    obtain ⟨d, hd⟩ := parent_isSome_of_comps_ne_nil s (by rw [hs]; simp [pushComponent])
    simp [SymlinkPath.resolve, hd]

/-- Instance of C10: the hop found for `/L/sub/file` resolves without
panicking. -/
theorem claim_C10_witness :
    (SymlinkPath.resolve (SymlinkPath.Symlink ⟨true, ["L"]⟩ ⟨true, ["D"]⟩
      ⟨false, ["sub", "file"]⟩)).isSome = true :=
  claim_C10_resolve_total fsLD ⟨true, ["L", "sub", "file"]⟩ ⟨true, ["L"]⟩
    ⟨true, ["D"]⟩ ⟨false, ["sub", "file"]⟩ (by decide)
    (fun t2 h => by
      rw [show readlink fsLD rootPath = Except.ok none from rfl] at h
      simp at h)

theorem runSteps_succ_yield (fs : Fs) (n : Nat) (it : ReadlinksIterator)
    (hop : SymlinkPath) (st : ReadlinksIterator)
    (h : ReadlinksIterator.next fs it = NextOutcome.yield hop st) :
    runSteps fs (n + 1) it = NextOutcome.yield hop st :: runSteps fs n st := by
  rw [runSteps, h]

theorem cycle_step_a :
    ReadlinksIterator.next fsCycle ⟨⟨true, ["a"]⟩, false⟩ =
      NextOutcome.yield (SymlinkPath.Symlink ⟨true, ["a"]⟩ ⟨true, ["b"]⟩ emptyPath)
        ⟨⟨true, ["b"]⟩, false⟩ := by decide

theorem cycle_step_b :
    ReadlinksIterator.next fsCycle ⟨⟨true, ["b"]⟩, false⟩ =
      NextOutcome.yield (SymlinkPath.Symlink ⟨true, ["b"]⟩ ⟨true, ["a"]⟩ emptyPath)
        ⟨⟨true, ["a"]⟩, false⟩ := by decide

theorem cycle_invariant :
    ∀ (n : Nat) (it : ReadlinksIterator),
      it = ⟨⟨true, ["a"]⟩, false⟩ ∨ it = ⟨⟨true, ["b"]⟩, false⟩ →
      (runSteps fsCycle n it).length = n ∧
        ∀ o ∈ runSteps fsCycle n it,
          ∃ s t suf st,
            o = NextOutcome.yield (SymlinkPath.Symlink s t suf) st ∧ st.done = false := by
  intro n
  induction n with
  | zero => intro it _; exact ⟨rfl, by simp [runSteps]⟩
  | succ n ih =>
    intro it hit
    rcases hit with rfl | rfl
    · rw [runSteps_succ_yield fsCycle n _ _ _ cycle_step_a]
      have hih := ih ⟨⟨true, ["b"]⟩, false⟩ (Or.inr rfl)
      refine ⟨by simp [hih.1], ?_⟩
      intro o ho
      rcases List.mem_cons.mp ho with rfl | hmem
      · exact ⟨_, _, _, _, rfl, rfl⟩
      · exact hih.2 o hmem
    · rw [runSteps_succ_yield fsCycle n _ _ _ cycle_step_b]
      have hih := ih ⟨⟨true, ["a"]⟩, false⟩ (Or.inl rfl)
      refine ⟨by simp [hih.1], ?_⟩
      intro o ho
      rcases List.mem_cons.mp ho with rfl | hmem
      · exact ⟨_, _, _, _, rfl, rfl⟩
      · exact hih.2 o hmem

/-- C9: on the cyclic filesystem where `/a` links to `/b` and `/b`
links back to `/a`, every run of n steps produces exactly n outcomes
and each of them is a Link hop with a not-done successor state: the
sequence never yields a Terminal hop and never becomes exhausted. -/
theorem claim_C9_cycle_never_terminates :
    ∀ n : Nat,
      (runSteps fsCycle n (resolveIter ⟨true, ["a"]⟩)).length = n ∧
      ∀ o ∈ runSteps fsCycle n (resolveIter ⟨true, ["a"]⟩),
        ∃ s t suf st,
          o = NextOutcome.yield (SymlinkPath.Symlink s t suf) st ∧ st.done = false :=
  fun n => cycle_invariant n (resolveIter ⟨true, ["a"]⟩) (Or.inl rfl)

/-- Instance of C9 at two steps: the first outcome is a Link hop with a
not-done successor state. -/
theorem claim_C9_witness :
    (runSteps fsCycle 2 (resolveIter ⟨true, ["a"]⟩)).length = 2 ∧
      ∃ s t suf st,
        NextOutcome.yield (SymlinkPath.Symlink ⟨true, ["a"]⟩ ⟨true, ["b"]⟩ emptyPath)
            ⟨⟨true, ["b"]⟩, false⟩ =
          NextOutcome.yield (SymlinkPath.Symlink s t suf) st ∧ st.done = false :=
  ⟨(claim_C9_cycle_never_terminates 2).1,
   (claim_C9_cycle_never_terminates 2).2
     (NextOutcome.yield (SymlinkPath.Symlink ⟨true, ["a"]⟩ ⟨true, ["b"]⟩ emptyPath)
       ⟨⟨true, ["b"]⟩, false⟩) (by decide)⟩

/-- C2: a link hop's resolved path is derived purely from source,
target and suffix — the parent of the source joined with the target,
then with the suffix when non-empty — where joining an absolute path
replaces the accumulator entirely.  On the chain `/a` to `/b` to the
relative `relative_c` the second hop therefore resolves to
`/relative_c`. -/
theorem claim_C2_resolve_join :
    (∀ s t suf d : FsPath, s.parent = some d →
        SymlinkPath.resolve (SymlinkPath.Symlink s t suf) =
          some (if suf.componentsList.isEmpty then d.push t else (d.push t).push suf)) ∧
    (∀ q r : FsPath, r.absolute = true → q.push r = r) ∧
    runSteps fsABC 2 (resolveIter ⟨true, ["a"]⟩) =
      [NextOutcome.yield (SymlinkPath.Symlink ⟨true, ["a"]⟩ ⟨true, ["b"]⟩ emptyPath)
         ⟨⟨true, ["b"]⟩, false⟩,
       NextOutcome.yield
         (SymlinkPath.Symlink ⟨true, ["b"]⟩ ⟨false, ["relative_c"]⟩ emptyPath)
         ⟨⟨true, ["relative_c"]⟩, false⟩] := by
  refine ⟨fun s t suf d hd => ?_, fun q r hr => ?_, by decide⟩
  · simp [SymlinkPath.resolve, hd]
  · simp [FsPath.push, hr]

/-- Instance of C2: the hop at `/b` with relative target `relative_c`
resolves to `/relative_c` (target joined relative to the parent `/`). -/
theorem claim_C2_witness :
    SymlinkPath.resolve
        (SymlinkPath.Symlink ⟨true, ["b"]⟩ ⟨false, ["relative_c"]⟩ emptyPath) =
      some ⟨true, ["relative_c"]⟩ := by
  have h := claim_C2_resolve_join.1 ⟨true, ["b"]⟩ ⟨false, ["relative_c"]⟩ emptyPath
    rootPath rfl
  simpa [FsPath.push, rootPath, emptyPath, FsPath.componentsList] using h

theorem find?_first_match (isF : FsPath → Bool) (p : FsPath) :
    ∀ (ds1 : List FsPath) (d : FsPath) (ds2 : List FsPath),
      (∀ d2 ∈ ds1, isF (d2.push p) = false) → isF (d.push p) = true →
      ((ds1 ++ d :: ds2).map fun x => x.push p).find? isF = some (d.push p) := by
  intro ds1
  induction ds1 with
  | nil =>
    intro d ds2 _ hd
    simp [List.find?, hd]
  | cons a as ih =>
    intro d ds2 hall hd
    have ha : isF (a.push p) = false := hall a (by simp)
    simp only [List.cons_append, List.map_cons]
    rw [List.find?_cons_of_neg _ (by simp [ha])]
    exact ih d ds2 (fun d2 h2 => hall d2 (List.mem_cons_of_mem a h2)) hd

/-- C6: the expander returns the candidate unchanged when it has more
than one component, when the search-path variable is unset, and when no
listed directory contains it as a file; when the candidate is a single
component it returns the first directory-joined candidate, in listed
order, that the file-existence check accepts. -/
theorem claim_C6_expand_path :
    (∀ (env : Option (List FsPath)) (isF : FsPath → Bool) (p : FsPath),
        p.componentsList.length ≠ 1 → expand_path env isF p = p) ∧
    (∀ (isF : FsPath → Bool) (p : FsPath), expand_path none isF p = p) ∧
    (∀ (isF : FsPath → Bool) (p : FsPath) (dirs : List FsPath),
        (∀ d ∈ dirs, isF (d.push p) = false) → expand_path (some dirs) isF p = p) ∧
    (∀ (isF : FsPath → Bool) (p : FsPath) (ds1 : List FsPath) (d : FsPath)
        (ds2 : List FsPath),
        p.componentsList.length = 1 → (∀ d2 ∈ ds1, isF (d2.push p) = false) →
        isF (d.push p) = true →
        expand_path (some (ds1 ++ d :: ds2)) isF p = d.push p) := by
  refine ⟨?_, ?_, ?_, ?_⟩
  · intro env isF p h
    have hb : (p.componentsList.length == 1) = false := by simpa using h
    simp [expand_path, hb]
  · intro isF p
    unfold expand_path
    cases hb : (p.componentsList.length == 1) <;> simp [hb]
  · intro isF p dirs hall
    unfold expand_path
    cases hb : (p.componentsList.length == 1) with
    | false => simp [hb]
    | true =>
      have hnone : ((dirs.map fun d => d.push p).find? isF) = none := by
        rw [List.find?_eq_none]
        intro x hx
        rcases List.mem_map.mp hx with ⟨d, hd, rfl⟩
        simp [hall d hd]
      show (((dirs.map fun d => d.push p).find? isF).getD p) = p
      rw [hnone]
      rfl
  · intro isF p ds1 d ds2 hlen hall hd
    unfold expand_path
    cases hb : (p.componentsList.length == 1) with
    | false => simp [hlen] at hb
    | true =>
      show ((((ds1 ++ d :: ds2).map fun x => x.push p).find? isF).getD p) = d.push p
      rw [find?_first_match isF p ds1 d ds2 hall hd]
      rfl

/-- Instance of C6 on the concrete scenario: with search path
`/bin:/usr/bin` and only `/bin/ls` existing as a file, expanding `ls`
gives `/bin/ls`. -/
theorem claim_C6_witness :
    expand_path (some searchDirs) isFileBinLs ⟨false, ["ls"]⟩ = ⟨true, ["bin", "ls"]⟩ := by
  have h := claim_C6_expand_path.2.2.2 isFileBinLs ⟨false, ["ls"]⟩ []
    ⟨true, ["bin"]⟩ [⟨true, ["usr", "bin"]⟩] (by decide) (by simp) (by decide)
  simpa [searchDirs, FsPath.push] using h

end Readlinks
